import Mathlib

/-!
Verification of the transcript-to-tutorial pipeline in
`src/app/api/generate/route.ts` (with `extractVideoId` from
`src/app/lib/videoUtils.ts`).

Strings are modelled as `List Char`; the JavaScript source is embedded
shallowly: every function is translated into an executable Lean definition
that mirrors the source line by line.  Bounded JS `while`/recursion is
rendered with an explicit fuel argument that is always initialised large
enough to cover the loop's own termination guard, so the Lean definitions
compute by `rfl`/`decide`.
-/

namespace TutorialGen

/-! ## Shared string primitives (JS semantics over `List Char`) -/

/-- JS `String.prototype.substring(s, e)` for the in-range, ordered calls the
source makes: drop `s` characters, keep `e - s`. -/
def jsSubstring (l : List Char) (s e : Nat) : List Char :=
  (l.drop s).take (e - s)

/-- Characters the JS regex class `\s` matches (ASCII range, which is all the
source's string constants and transcripts use at boundary positions). -/
def isWsChar (c : Char) : Bool :=
  c == ' ' || c == '\t' || c == '\n' || c == '\r' || c == '\x0b' || c == '\x0c'

/-- The JS regex class `[A-Z]`. -/
def isUpperAZ (c : Char) : Bool :=
  'A' ≤ c && c ≤ 'Z'

/-- The JS regex class `[.!?]` (sentence-ending punctuation). -/
def isSentencePunct (c : Char) : Bool :=
  c == '.' || c == '!' || c == '?'

/-- Helper for `lastIndexOf`: scan candidate start positions downward from
`i`; JS `String.prototype.lastIndexOf` returns the greatest occurrence. -/
def lastIndexOfAux (hay needle : List Char) : Nat → Option Nat
  | 0 => if needle.isPrefixOf hay then some 0 else none
  | i + 1 =>
    if needle.isPrefixOf (hay.drop (i + 1)) then some (i + 1)
    else lastIndexOfAux hay needle i

/-- JS `hay.lastIndexOf(needle)`, with `none` for the JS result `-1`. -/
def lastIndexOf (hay needle : List Char) : Option Nat :=
  lastIndexOfAux hay needle hay.length

/-- JS `hay.includes(needle)` (used for quota-message classification). -/
def jsIncludes (hay needle : List Char) : Bool :=
  (lastIndexOf hay needle).isSome

/-! ## FallbackClient (`route.ts` lines 9-67) -/

/-- The model roster `FALLBACK_MODELS`, in priority order. -/
def FALLBACK_MODELS : List String :=
  ["gemini-2.5-flash", "gemini-2.5-flash-lite", "gemini-3-flash",
   "gemini-2.0-flash", "gemini-1.5-flash"]

/-- The error object a failed backend call carries (`err.status`,
`err.message`). -/
structure GenError where
  status : Option Nat
  message : Option (List Char)
deriving DecidableEq, Repr

/-- One backend call outcome: the oracle replacing
`model.generateContent(prompt)`. -/
inductive CallOutcome where
  | success (text : List Char)
  | failure (e : GenError)
deriving DecidableEq, Repr

/-- The quota/availability classification of `route.ts` lines 58-59:
status 429 or 503, or a message containing `quota` or `Resource exhausted`. -/
def isQuotaError (e : GenError) : Bool :=
  e.status == some 429 || e.status == some 503 ||
    (match e.message with
     | some m => jsIncludes m "quota".data || jsIncludes m "Resource exhausted".data
     | none => false)

/-- Whether an outcome is a quota-classified failure. -/
def isQuotaOutcome (o : CallOutcome) : Bool :=
  match o with
  | .success _ => false
  | .failure e => isQuotaError e

/-- JS `Set.prototype.add` on the exhausted-model set (no duplicates). -/
def setAdd (x : String) (s : List String) : List String :=
  if x ∈ s then s else s ++ [x]

/-- Model selection `getAvailableModel()` (`route.ts` lines 24-35): the selected model name
together with the possibly-cleared exhausted set.  The JS function's only
side effect is the `clear()` in the all-exhausted branch; the returned
`GenerativeModel` is determined by the returned name. -/
def getAvailableModel (exhausted : List String) : String × List String :=
  match FALLBACK_MODELS.find? (fun m => !(exhausted.contains m)) with
  | some m => (m, exhausted)
  | none => (FALLBACK_MODELS.headD "", [])

/-- The mutable state `generateWithFallback` interacts with: the process-wide
exhausted set plus a counter of backend calls issued so far (the counter
indexes the backend oracle). -/
structure FBState where
  exhausted : List String
  calls : Nat
deriving DecidableEq, Repr

/-- Result of `generateWithFallback`: a normal return, a propagated non-quota
error (`throw error`), or the terminal `throw new Error("All models have hit
quota limits. ...")`. -/
inductive GenResult where
  | ok (text : List Char) (model : String)
  | error (e : GenError)
  | allExhausted
deriving DecidableEq, Repr

/-- The retry bound `maxRetries = FALLBACK_MODELS.length` (`route.ts` line 41). -/
def maxRetries : Nat := FALLBACK_MODELS.length

/-- Body of `generateWithFallback` (`route.ts` lines 40-67), structurally
recursive on the remaining retry budget `maxRetries - retryCount` (the source
recurses with `retryCount + 1` and throws once `retryCount >= maxRetries`).
The backend oracle maps the index of a call to its outcome. -/
def generateWithFallbackAux (backend : Nat → CallOutcome) :
    Nat → FBState → GenResult × FBState
  | 0, st => (.allExhausted, st)
  | budget + 1, st =>
    let sel := getAvailableModel st.exhausted
    let ex₁ := sel.2
    let modelName :=
      (FALLBACK_MODELS.find? (fun m => !(ex₁.contains m))).getD (FALLBACK_MODELS.headD "")
    match backend st.calls with
    | .success t => (.ok t modelName, ⟨ex₁, st.calls + 1⟩)
    | .failure e =>
      if isQuotaError e then
        generateWithFallbackAux backend budget ⟨setAdd modelName ex₁, st.calls + 1⟩
      else
        (.error e, ⟨ex₁, st.calls + 1⟩)

/-- Entry point `generateWithFallback(prompt, retryCount)`; the prompt only reaches the
backend, which the oracle already abstracts, so it is not carried. -/
def generateWithFallback (backend : Nat → CallOutcome) (retryCount : Nat)
    (st : FBState) : GenResult × FBState :=
  generateWithFallbackAux backend (maxRetries - retryCount) st

/-! ## Chunker (`route.ts` lines 69-71 and 197-240) -/

/-- Constant `CHUNK_SIZE` (`route.ts` line 70). -/
def CHUNK_SIZE : Nat := 20000

/-- Constant `OVERLAP_SIZE` (`route.ts` line 71). -/
def OVERLAP_SIZE : Nat := 500

/-- One anchored attempt of the JS regex `[.!?]\s+(?=[A-Z])` at position `i`
of `region`.  Whitespace characters are never in `[A-Z]`, so the greedy
`\s+` admits no effective backtracking: the attempt succeeds exactly when
the character after the maximal whitespace run exists and is `[A-Z]`.  The
returned matched string is the punctuation mark plus the whitespace run
(the lookahead consumes nothing). -/
def boundaryMatchAt (region : List Char) (i : Nat) : Option (List Char) :=
  match region.drop i with
  | [] => none
  | c :: rest =>
    if isSentencePunct c then
      let k := (rest.takeWhile isWsChar).length
      if k = 0 then none
      else
        match (rest.drop k).head? with
        | some d => if isUpperAZ d then some (c :: rest.take k) else none
        | none => none
    else none

/-- All matches of `[.!?]\s+(?=[A-Z])` with the `g` flag, as position/string
pairs.  A match's span after its first character is all whitespace while any
match starts with punctuation, so matches never overlap and the global
left-to-right scan coincides with trying every position. -/
def boundaryMatchesP (region : List Char) : List (Nat × List Char) :=
  (List.range region.length).filterMap
    (fun i => (boundaryMatchAt region i).map (fun m => (i, m)))

/-- The array `searchRegion.match(/[.!?]\s+(?=[A-Z])/g)` of matched strings
(`route.ts` line 219). -/
def boundaryMatches (region : List Char) : List (List Char) :=
  (boundaryMatchesP region).map Prod.snd

/-- The search region of `route.ts` lines 214-216:
`transcript.substring(endIndex - 200, Math.min(endIndex + 200, length))`. -/
def searchRegionOf (t : List Char) (endIndex : Nat) : List Char :=
  jsSubstring t (endIndex - 200) (min (endIndex + 200) t.length)

/-- The end index one iteration of the chunking loop settles on
(`route.ts` lines 209-226): the tentative `startIndex + CHUNK_SIZE`, snapped
— when that is not the end of the text — to just past the last occurrence
(`lastIndexOf`) in the search region of the last matched separator string.
The JS null-guards `if (sentenceEndMatch)` and `if (lastMatch !== -1)` are
the two `Option.elim`s, whose `none` branches keep the tentative end. -/
def computeEnd (t : List Char) (startIndex : Nat) : Nat :=
  if startIndex + CHUNK_SIZE < t.length then
    Option.elim (boundaryMatches (searchRegionOf t (startIndex + CHUNK_SIZE))).getLast?
      (startIndex + CHUNK_SIZE)
      (fun lastM =>
        Option.elim (lastIndexOf (searchRegionOf t (startIndex + CHUNK_SIZE)) lastM)
          (startIndex + CHUNK_SIZE)
          (fun lastMatchPos =>
            startIndex + CHUNK_SIZE - 200 + lastMatchPos + lastM.length))
  else startIndex + CHUNK_SIZE

/-- The `while (startIndex < transcript.length)` loop of `route.ts`
lines 208-237, with fuel.  Each iteration pushes
`transcript.substring(startIndex, endIndex)` and breaks once the next start
would be at or past `transcript.length - OVERLAP_SIZE` (the loop runs only
for texts longer than `CHUNK_SIZE`, so the JS subtraction never goes
negative and agrees with truncated subtraction).  Every iteration advances
`startIndex` by more than one, so fuel `t.length` is never exhausted before
the loop's own break fires. -/
def chunkLoopAux (t : List Char) : Nat → Nat → List (List Char)
  | 0, _ => []
  | fuel + 1, startIndex =>
    if startIndex < t.length then
      let endIndex := computeEnd t startIndex
      let chunk := jsSubstring t startIndex endIndex
      let nextStart := endIndex - OVERLAP_SIZE
      if t.length - OVERLAP_SIZE ≤ nextStart then [chunk]
      else chunk :: chunkLoopAux t fuel nextStart
    else []

/-- Function `chunkTranscript` (`route.ts` lines 200-240). -/
def chunkTranscript (t : List Char) : List (List Char) :=
  if t.length ≤ CHUNK_SIZE then [t]
  else chunkLoopAux t t.length 0

/-- The (start, end) index pairs of the windows the chunking loop carves —
the same recursion as `chunkLoopAux` with the substring extraction left
symbolic, used to state structural properties of the chunks. -/
def chunkIntervalsAux (t : List Char) : Nat → Nat → List (Nat × Nat)
  | 0, _ => []
  | fuel + 1, startIndex =>
    if startIndex < t.length then
      let endIndex := computeEnd t startIndex
      let nextStart := endIndex - OVERLAP_SIZE
      if t.length - OVERLAP_SIZE ≤ nextStart then [(startIndex, endIndex)]
      else (startIndex, endIndex) :: chunkIntervalsAux t fuel nextStart
    else []

/-- The window intervals of `chunkTranscript` on a text longer than
`CHUNK_SIZE`. -/
def chunkIntervals (t : List Char) : List (Nat × Nat) :=
  chunkIntervalsAux t t.length 0

/-- Modelled from the spec: the window end the specification describes for a
non-final window — moved to just after "the last occurrence, within ±200
characters of the tentative end, of a sentence-ending punctuation mark
immediately followed by whitespace and an upper-case letter", with the raw
`maxSize` boundary when no such occurrence exists.  It differs from
`computeEnd` only in using the last pattern match's own position instead of
`lastIndexOf` of its matched string. -/
def specComputeEnd (t : List Char) (startIndex : Nat) : Nat :=
  if startIndex + CHUNK_SIZE < t.length then
    Option.elim (boundaryMatchesP (searchRegionOf t (startIndex + CHUNK_SIZE))).getLast?
      (startIndex + CHUNK_SIZE)
      (fun pm => startIndex + CHUNK_SIZE - 200 + pm.1 + pm.2.length)
  else startIndex + CHUNK_SIZE

/-! ## ContextExtractor (`route.ts` lines 242-261) -/

/-- Greatest index `j < i` whose character satisfies `p`, scanning downward
(used for the regex engine's backtracking over a whitespace run that ran to
the end of the string). -/
def lastPosAux (l : List Char) (p : Char → Bool) : Nat → Option Nat
  | 0 => none
  | i + 1 => if p (l.getD i ' ') then some i else lastPosAux l p i

/-- JS semantics of the regex tail `\s+.+$` (under the `m` flag) anchored at
the start of `r`: a greedy whitespace run, then at least one non-newline
character, ending at an end of line.  The maximal whitespace run is either
followed by a non-whitespace (hence non-newline) character — no backtracking
— or reaches the end of the string, in which case the engine backs off to
the last whitespace character that is not a newline (a shorter run would
leave `.+` starting on a newline). -/
def wsThenLineMatch (r : List Char) : Option (List Char) :=
  let k := (r.takeWhile isWsChar).length
  if k = 0 then none
  else if k < r.length then
    some (r.take k ++ (r.drop k).takeWhile (fun c => !(c == '\n')))
  else
    match lastPosAux r (fun c => !(c == '\n')) k with
    | some j =>
      if j = 0 then none
      else some (r.take j ++ (r.drop j).takeWhile (fun c => !(c == '\n')))
    | none => none

/-- One anchored attempt of `##?\s+.+$` (with `requireTwo`, of `##\s+.+$`)
at position `i`; the caller separately checks the `^` anchor.  When the
double marker's `\s+` fails, backtracking the optional `#` cannot succeed
either — the next character is `#`, not whitespace — so a double marker is
committed whenever present. -/
def matchHeadingAt (requireTwo : Bool) (s : List Char) (i : Nat) :
    Option (List Char) :=
  match s.drop i with
  | c1 :: c2 :: rest =>
    if c1 == '#' && c2 == '#' then
      (wsThenLineMatch rest).map (fun m => '#' :: '#' :: m)
    else if c1 == '#' then
      if requireTwo then none
      else (wsThenLineMatch (c2 :: rest)).map (fun m => '#' :: m)
    else none
  | [c1] =>
    if c1 == '#' then
      if requireTwo then none
      else (wsThenLineMatch []).map (fun m => '#' :: m)
    else none
  | [] => none

/-- The `^` anchor under the `m` flag: position 0 or just after a newline. -/
def isLineStart (s : List Char) (i : Nat) : Bool :=
  i == 0 || s.getD (i - 1) ' ' == '\n'

/-- Scan for the first heading match at or after position `p` (fuel-driven;
one unit per position, so fuel `s.length` covers any starting `p`). -/
def findHeadingAux (requireTwo : Bool) (s : List Char) :
    Nat → Nat → Option (Nat × List Char)
  | 0, _ => none
  | fuel + 1, p =>
    if p < s.length then
      if isLineStart s p then
        Option.elim (matchHeadingAt requireTwo s p)
          (findHeadingAux requireTwo s fuel (p + 1))
          (fun m => some (p, m))
      else findHeadingAux requireTwo s fuel (p + 1)
    else none

/-- First match of the heading regex at or after `p`; for `requireTwo`
this is the JS `current.match(/^##\s+.+$/m)` (`route.ts` line 294) together
with its position. -/
def findHeadingFrom (requireTwo : Bool) (s : List Char) (p : Nat) :
    Option (Nat × List Char) :=
  findHeadingAux requireTwo s s.length p

/-- Global scan of `/^##?\s+.+$/gm`: after each match the engine resumes at
the match's end (a heading's matched span can, in corner cases, swallow a
following line start, which must then not produce its own match).  Every
match is nonempty, so fuel `s.length + 1` covers the whole scan. -/
def allHeadingsAux (s : List Char) : Nat → Nat → List (List Char)
  | 0, _ => []
  | fuel + 1, p =>
    Option.elim (findHeadingFrom false s p) []
      (fun im => im.2 :: allHeadingsAux s fuel (im.1 + im.2.length))

/-- The array `content.match(/^##?\s+.+$/gm)` of `route.ts` line 247, with
the empty list for the JS `null`. -/
def allHeadings (s : List Char) : List (List Char) :=
  allHeadingsAux s (s.length + 1) 0

/-- JS `h.replace(/^#+\s+/, '')` (`route.ts` line 252): strip a leading
run of `#` followed by a whitespace run, when both are nonempty. -/
def stripHeadingMarker (h : List Char) : List Char :=
  let hashes := (h.takeWhile (fun c => c == '#')).length
  if hashes = 0 then h
  else
    let rest := h.drop hashes
    let ws := (rest.takeWhile isWsChar).length
    if ws = 0 then h else rest.drop ws

/-- Function `extractSummary` (`route.ts` lines 245-261).  The JS
`content.slice(-500)` is `drop (length - 500)`; the `forEach`/`push` over
`headings.slice(0, 10)` is a map over `take 10`. -/
def extractSummary (content : List Char) : List Char :=
  let headings := allHeadings content
  let summaryParts := (headings.take 10).map stripHeadingMarker
  if summaryParts.length = 0 then
    content.drop (content.length - 500)
  else
    "Sections covered: ".data ++ List.intercalate ", ".data summaryParts

/-! ## Merger (`route.ts` lines 279-315) -/

/-- Whether the lookahead `(?=##\s+\d)` holds at position `i`: `##`, a
whitespace run, then a digit (digits are not whitespace, so the greedy run
admits no backtracking). -/
def overviewStopAt (s : List Char) (i : Nat) : Bool :=
  match s.drop i with
  | '#' :: '#' :: rest =>
    let k := (rest.takeWhile isWsChar).length
    !(k == 0) &&
      (match (rest.drop k).head? with
       | some d => d.isDigit
       | none => false)
  | _ => false

/-- Least position `i ≥` the start index at which `overviewStopAt` holds,
scanning ascending — the lazy `[\s\S]*?` grows until its lookahead matches
or the string ends. -/
def findStopAux (s : List Char) : Nat → Nat → Option Nat
  | 0, _ => none
  | fuel + 1, i =>
    if i ≤ s.length then
      if overviewStopAt s i then some i else findStopAux s fuel (i + 1)
    else none

/-- One anchored attempt, at line start `p`, of the body of the JS regex
`/^#\s+[^\n]+\n+##\s+Overview[\s\S]*?(?=##\s+\d)/m` (`route.ts` line 306),
returning the matched span's length.  Each greedy piece is committed to its
maximal run: each piece's character class excludes the character that ended
the previous piece's run, so giving characters back cannot make a failing
continuation succeed. -/
def titleOverviewMatchLen (s : List Char) (p : Nat) : Option Nat :=
  match s.drop p with
  | '#' :: r =>
    let k₁ := (r.takeWhile isWsChar).length
    if k₁ = 0 then none
    else
      let r₁ := r.drop k₁
      let c₁ := (r₁.takeWhile (fun c => !(c == '\n'))).length
      if c₁ = 0 then none
      else
        let r₂ := r₁.drop c₁
        let n₁ := (r₂.takeWhile (fun c => c == '\n')).length
        if n₁ = 0 then none
        else
          match r₂.drop n₁ with
          | '#' :: '#' :: r₄ =>
            let k₂ := (r₄.takeWhile isWsChar).length
            if k₂ = 0 then none
            else if "Overview".data.isPrefixOf (r₄.drop k₂) then
              let base := p + 1 + k₁ + c₁ + n₁ + 2 + k₂ + 8
              match findStopAux s (s.length + 1) base with
              | some stop => some (stop - p)
              | none => none
            else none
          | _ => none
  | _ => none

/-- Scan line starts ascending for the first `titleOverviewMatchLen` match
(position and length). -/
def findTitleAux (s : List Char) : Nat → Nat → Option (Nat × Nat)
  | 0, _ => none
  | fuel + 1, p =>
    if p < s.length then
      if isLineStart s p then
        match titleOverviewMatchLen s p with
        | some len => some (p, len)
        | none => findTitleAux s fuel (p + 1)
      else findTitleAux s fuel (p + 1)
    else none

/-- JS `current.replace(/^#\s+[^\n]+\n+##\s+Overview[\s\S]*?(?=##\s+\d)/m, '')`
(`route.ts` line 306): delete the first matched span, if any. -/
def stripTitleOverview (cur : List Char) : List Char :=
  Option.elim (findTitleAux cur cur.length 0) cur
    (fun pl => cur.take pl.1 ++ cur.drop (pl.1 + pl.2))

/-- Body of `collapseNewlines`, fuel-driven (each step consumes at least one
character). -/
def collapseAux : Nat → List Char → List Char
  | 0, l => l
  | _ + 1, [] => []
  | fuel + 1, c :: rest =>
    if c == '\n' then
      let run := 1 + (rest.takeWhile (fun d => d == '\n')).length
      if 4 ≤ run then
        '\n' :: '\n' :: '\n' :: collapseAux fuel (rest.drop (run - 1))
      else c :: collapseAux fuel rest
    else c :: collapseAux fuel rest

/-- JS `merged.replace(/\n{4,}/g, '\n\n\n')` (`route.ts` line 312): every
maximal run of four or more newlines becomes exactly three. -/
def collapseNewlines (l : List Char) : List Char :=
  collapseAux l.length l

/-- The loop body of `mergeResponses` (`route.ts` lines 289-308) for one
subsequent response: truncate the accumulated text just before the last
occurrence of the current response's first level-two heading line (when
both exist), then append a blank-line separator and the title-stripped
current response. -/
def mergeStep (merged cur : List Char) : List Char :=
  Option.elim (findHeadingFrom true cur 0)
    merged
    (fun im => Option.elim (lastIndexOf merged im.2) merged
      (fun p => merged.take p)) ++ '\n' :: '\n' :: stripTitleOverview cur

/-- Function `mergeResponses` (`route.ts` lines 282-315).  A single response
is returned unchanged (before the newline collapse, as in the source); the
empty list — on which the JS would fault and which the route never builds —
is mapped to the empty string. -/
def mergeResponses (responses : List (List Char)) : List Char :=
  match responses with
  | [] => []
  | [r] => r
  | r :: rest => collapseNewlines (rest.foldl mergeStep r)

/-! ## URL parsing (`videoUtils.ts` lines 4-15) and the POST route
(`route.ts` lines 317-476) -/

/-- The four URL prefixes of `extractVideoId`'s first pattern. -/
def URL_PREFIXES : List (List Char) :=
  ["youtube.com/watch?v=".data, "youtu.be/".data, "youtube.com/embed/".data,
   "youtube.com/v/".data]

/-- The capture class `[^&\n?#]`. -/
def isCaptureChar (c : Char) : Bool :=
  !(c == '&' || c == '\n' || c == '?' || c == '#')

/-- The class `[a-zA-Z0-9_-]` of the direct-video-id pattern. -/
def isIdChar (c : Char) : Bool :=
  ('a' ≤ c && c ≤ 'z') || ('A' ≤ c && c ≤ 'Z') || ('0' ≤ c && c ≤ '9') ||
    c == '_' || c == '-'

/-- One attempt of the URL pattern at the current suffix: some listed prefix
followed by at least one captured character (the capture group is `+`, so an
empty capture fails the attempt). -/
def urlCaptureAt (l : List Char) : Option (List Char) :=
  URL_PREFIXES.findSome? (fun pre =>
    if pre.isPrefixOf l then
      let cap := (l.drop pre.length).takeWhile isCaptureChar
      if cap.isEmpty then none else some cap
    else none)

/-- Leftmost match of the URL pattern (the four alternatives diverge after
their common prefix, so at most one can match at any one position and
alternation order is immaterial). -/
def scanUrlCapture : List Char → Option (List Char)
  | [] => none
  | c :: rest =>
    Option.elim (urlCaptureAt (c :: rest)) (scanUrlCapture rest)
      (fun cap => some cap)

/-- Function `extractVideoId` (`videoUtils.ts` lines 4-15): the URL
pattern's capture group, else the whole string when it is exactly eleven
`[a-zA-Z0-9_-]` characters (`/^([a-zA-Z0-9_-]{11})$/`). -/
def extractVideoId (u : List Char) : Option (List Char) :=
  Option.elim (scanUrlCapture u)
    (if u.length = 11 && u.all isIdChar then some u else none)
    (fun cap => some cap)

/-- The outcome of `fetchTranscriptWithFallback` as the route's inner `try`
observes it: a result object, `null`, or a thrown error (which the route
catches, leaving `transcript` null). -/
inductive FetchResult where
  | ok (text : List Char) (source : String)
  | noResult
  | fetchError (msg : List Char)
deriving DecidableEq, Repr

/-- A JSON response from the route, reduced to the fields the claims
mention: the generated tutorial with its chunk count, or an error message
with its HTTP status. -/
inductive ApiResponse where
  | ok (tutorial : List Char) (chunksProcessed : Nat)
  | err (status : Nat) (message : List Char)
deriving DecidableEq, Repr

/-- Error message of `route.ts` line 322. -/
def urlRequiredMsg : List Char := "YouTube URL is required".data

/-- Error message of `route.ts` line 332. -/
def invalidUrlMsg : List Char :=
  "Invalid YouTube URL. Please provide a valid YouTube video link.".data

/-- Error message of `route.ts` line 342. -/
def apiKeyMsg : List Char :=
  "API key not configured. Please add GEMINI_API_KEY to environment variables.".data

/-- Error message of `route.ts` line 369. -/
def transcriptUnavailableMsg : List Char :=
  "Could not extract transcript from this video.\n\nTips:\n• Make sure the video has captions/subtitles enabled\n• Auto-generated captions work too\n• Some videos have region-restricted captions".data

/-- Error message of the outer catch, `route.ts` line 472. -/
def fatalErrorMsg : List Char :=
  "Failed to generate tutorial. Please try again later.".data

/-- The per-chunk generation loop of `route.ts` lines 383-450, reduced to
the observables the claims concern: the ordered chunk responses, the
fallback state (exhausted set and backend-call count), and whether a thrown
generation failure aborted the loop.  Prompt construction and the
continuation-context threading (`extractSummary`, `getLastSectionPreview`)
only shape the prompt string, which the call-indexed backend oracle already
abstracts, so they are not carried. -/
def runChunks (backend : Nat → CallOutcome) :
    List (List Char) → FBState → Option (List (List Char)) × FBState
  | [], st => (some [], st)
  | _chunk :: cs, st =>
    match generateWithFallback backend 0 st with
    | (.ok t _m, st') =>
      match runChunks backend cs st' with
      | (some rs, st'') => (some (t :: rs), st'')
      | (none, st'') => (none, st'')
    | (_, st') => (none, st')

/-- The transcript the route's inner `try`/`catch` leaves in `transcript`:
`null` on a thrown fetch error or a `null` result, and also for an empty
string (the JS `if (!transcript)` treats `""` as missing). -/
def fetchedTranscript (fetch : FetchResult) : Option (List Char) :=
  match fetch with
  | .ok text _src => if text.isEmpty then none else some text
  | .noResult => none
  | .fetchError _ => none

/-- The `POST` handler (`route.ts` lines 317-476) over explicit inputs: the
request's `url` field (`none` for a missing field), whether
`GEMINI_API_KEY` is set, the transcript-fetch outcome, the generation
backend oracle, and the initial process-wide exhausted set.  Returns the
response together with the number of generation calls issued.  A thrown
generation failure (a propagated non-quota error or the all-models-exhausted
error) reaches the route's outer `catch`, which answers 500. -/
def POSTmodel (url : Option (List Char)) (apiKeyPresent : Bool)
    (fetch : FetchResult) (backend : Nat → CallOutcome) (ex₀ : List String) :
    ApiResponse × Nat :=
  Option.elim url (.err 400 urlRequiredMsg, 0) (fun u =>
    if u.isEmpty then (.err 400 urlRequiredMsg, 0)
    else
      Option.elim (extractVideoId u) (.err 400 invalidUrlMsg, 0) (fun _vid =>
        if !apiKeyPresent then (.err 500 apiKeyMsg, 0)
        else
          Option.elim (fetchedTranscript fetch)
            (.err 400 transcriptUnavailableMsg, 0)
            (fun t =>
              match runChunks backend (chunkTranscript t) ⟨ex₀, 0⟩ with
              | (some responses, st) =>
                (.ok (mergeResponses responses) (chunkTranscript t).length,
                  st.calls)
              | (none, st) => (.err 500 fatalErrorMsg, st.calls))))

/-! ## Concrete inputs used by witnesses and counterexamples -/

/-- A 20210-character transcript whose boundary search region is
`"xx. Bcc. e"` followed by `y`s: the only `[.!?]\s+(?=[A-Z])` match is the
`". "` before `B`, but the same two-character string recurs later before a
lower-case `e`, where `lastIndexOf` lands. -/
def snapCounterText : List Char :=
  List.replicate 19800 'a' ++ ("xx. Bcc. e".data ++ List.replicate 400 'y')

/-- A minimal over-length transcript (20001 characters) for instantiating
the chunking theorems. -/
def plainLongText : List Char :=
  List.replicate 20001 'a'

/-- A backend oracle that always reports a quota failure (HTTP 429). -/
def alwaysQuotaBackend : Nat → CallOutcome :=
  fun _ => .failure ⟨some 429, none⟩

/-- A backend oracle whose first call fails with a non-quota error. -/
def badRequestBackend : Nat → CallOutcome :=
  fun _ => .failure ⟨some 400, some "bad".data⟩

/-- Generated content with ten level-two headings, for the summary
witness. -/
def tenHeadings : List Char :=
  "## a1\n## a2\n## a3\n## a4\n## a5\n## a6\n## a7\n## a8\n## a9\n## b1\n".data

/-- First merge input: ends with a heading the next response repeats. -/
def mergeLeft : List Char := "## A\nfoo".data

/-- Second merge input: opens by restating the heading `## A`. -/
def mergeRight : List Char := "## A\nbar".data

/-- A bare eleven-character video id, for the route witness. -/
def sampleVideoId : List Char := "dQw4w9WgXcQ".data

/-! ## General lemmas -/

theorem find?_eq_head?_filter {α : Type _} (p : α → Bool) (l : List α) :
    l.find? p = (l.filter p).head? := by
  induction l with
  | nil => rfl
  | cons a l ih =>
    by_cases h : p a = true
    · rw [List.find?_cons_of_pos _ h, List.filter_cons, if_pos h, List.head?_cons]
    · rw [List.find?_cons_of_neg _ h, List.filter_cons, if_neg h, ih]

theorem lastIndexOfAux_some {hay needle : List Char} {i j : Nat}
    (h : lastIndexOfAux hay needle i = some j) :
    needle.isPrefixOf (hay.drop j) = true ∧ j ≤ i := by
  induction i with
  | zero =>
    by_cases hp : needle.isPrefixOf hay = true
    · simp [lastIndexOfAux, hp] at h
      subst h
      simpa using hp
    · simp [lastIndexOfAux, hp] at h
  | succ i ih =>
    by_cases hp : needle.isPrefixOf (hay.drop (i + 1)) = true
    · simp [lastIndexOfAux, hp] at h
      subst h
      exact ⟨hp, le_refl _⟩
    · simp only [lastIndexOfAux, hp, if_false] at h
      obtain ⟨h1, h2⟩ := ih h
      exact ⟨h1, h2.trans (Nat.le_succ i)⟩

theorem lastIndexOfAux_ge {hay needle : List Char} {p : Nat} (i : Nat)
    (hocc : needle.isPrefixOf (hay.drop p) = true) (hpi : p ≤ i) :
    ∃ j, lastIndexOfAux hay needle i = some j ∧ p ≤ j := by
  induction i with
  | zero =>
    interval_cases p
    simp only [List.drop_zero] at hocc
    exact ⟨0, by simp [lastIndexOfAux, hocc], le_refl _⟩
  | succ i ih =>
    by_cases hp : needle.isPrefixOf (hay.drop (i + 1)) = true
    · exact ⟨i + 1, by simp [lastIndexOfAux, hp], hpi⟩
    · have hne : p ≠ i + 1 := by
        intro hcon
        rw [hcon] at hocc
        exact hp hocc
      obtain ⟨j, hj, hpj⟩ := ih (by omega)
      exact ⟨j, by simp [lastIndexOfAux, hp, hj], hpj⟩

theorem lastIndexOf_some {hay needle : List Char} {j : Nat}
    (h : lastIndexOf hay needle = some j) :
    needle.isPrefixOf (hay.drop j) = true ∧ j ≤ hay.length :=
  lastIndexOfAux_some h

theorem lastIndexOf_ge {hay needle : List Char} {p : Nat}
    (hocc : needle.isPrefixOf (hay.drop p) = true) (hpl : p ≤ hay.length) :
    ∃ j, lastIndexOf hay needle = some j ∧ p ≤ j :=
  lastIndexOfAux_ge hay.length hocc hpl

/-! ## FallbackClient lemmas and the claims C1, C5, C8 -/

theorem modelName_mem (ex : List String) :
    ((FALLBACK_MODELS.find? (fun m => !(ex.contains m))).getD
        (FALLBACK_MODELS.headD "")) ∈ FALLBACK_MODELS := by
  cases h : FALLBACK_MODELS.find? (fun m => !(ex.contains m)) with
  | none => simp [FALLBACK_MODELS]
  | some m =>
    simpa using List.mem_of_find?_eq_some h

theorem getAvailableModel_sub (ex : List String) :
    (getAvailableModel ex).2 ⊆ ex := by
  unfold getAvailableModel
  cases h : FALLBACK_MODELS.find? (fun m => !(ex.contains m)) <;>
    simp [List.nil_subset]

theorem generateWithFallbackAux_sub (backend : Nat → CallOutcome) :
    ∀ budget st, st.exhausted ⊆ FALLBACK_MODELS →
      (generateWithFallbackAux backend budget st).2.exhausted ⊆ FALLBACK_MODELS := by
  intro budget
  induction budget with
  | zero => intro st hst; exact hst
  | succ b ih =>
    intro st hst
    have hsel : (getAvailableModel st.exhausted).2 ⊆ FALLBACK_MODELS :=
      (getAvailableModel_sub st.exhausted).trans hst
    unfold generateWithFallbackAux
    cases hb : backend st.calls with
    | success t => exact hsel
    | failure e =>
      by_cases hq : isQuotaError e = true
      · simp only [hq, if_true]
        apply ih
        intro x hx
        unfold setAdd at hx
        by_cases hmem :
            ((FALLBACK_MODELS.find? (fun m => !((getAvailableModel st.exhausted).2.contains m))).getD
              (FALLBACK_MODELS.headD "")) ∈ (getAvailableModel st.exhausted).2
        · simp only [hmem, if_true] at hx
          exact hsel hx
        · simp only [hmem, if_false, List.mem_append, List.mem_singleton] at hx
          rcases hx with hx | hx
          · exact hsel hx
          · subst hx
            exact modelName_mem _
      · simp only [hq, if_false]
        exact hsel

theorem generateWithFallbackAux_exhaust (backend : Nat → CallOutcome) :
    ∀ budget st, (∀ i, i < budget → isQuotaOutcome (backend (st.calls + i)) = true) →
      (generateWithFallbackAux backend budget st).1 = .allExhausted ∧
      (generateWithFallbackAux backend budget st).2.calls = st.calls + budget := by
  intro budget
  induction budget with
  | zero => intro st _; exact ⟨rfl, rfl⟩
  | succ b ih =>
    intro st hq
    have h0 : isQuotaOutcome (backend st.calls) = true := by
      simpa using hq 0 (by omega)
    unfold generateWithFallbackAux
    dsimp only
    cases hb : backend st.calls with
    | success t =>
      rw [hb] at h0
      simp [isQuotaOutcome] at h0
    | failure e =>
      rw [hb] at h0
      have he : isQuotaError e = true := by simpa [isQuotaOutcome] using h0
      dsimp only
      rw [if_pos he]
      have hq' : ∀ i, i < b →
          isQuotaOutcome (backend (st.calls + 1 + i)) = true := by
        intro i hi
        have h := hq (i + 1) (by omega)
        rwa [show st.calls + (i + 1) = st.calls + 1 + i by omega] at h
      obtain ⟨h1, h2⟩ := ih ⟨setAdd
        ((FALLBACK_MODELS.find?
            (fun m => !((getAvailableModel st.exhausted).2.contains m))).getD
          (FALLBACK_MODELS.headD ""))
        (getAvailableModel st.exhausted).2, st.calls + 1⟩ hq'
      refine ⟨h1, ?_⟩
      rw [h2]
      show st.calls + 1 + b = st.calls + (b + 1)
      omega

theorem generateWithFallbackAux_success (backend : Nat → CallOutcome) :
    ∀ budget k st t, k < budget →
      (∀ i, i < k → isQuotaOutcome (backend (st.calls + i)) = true) →
      backend (st.calls + k) = .success t →
      ∃ m, (generateWithFallbackAux backend budget st).1 = .ok t m ∧
        m ∈ FALLBACK_MODELS ∧
        (generateWithFallbackAux backend budget st).2.calls = st.calls + k + 1 := by
  intro budget
  induction budget with
  | zero => intro k st t hk; exact absurd hk (Nat.not_lt_zero k)
  | succ b ih =>
    intro k st t hk hq hs
    unfold generateWithFallbackAux
    dsimp only
    cases k with
    | zero =>
      rw [Nat.add_zero] at hs
      rw [hs]
      exact ⟨_, rfl, modelName_mem _, rfl⟩
    | succ k' =>
      have h0 : isQuotaOutcome (backend st.calls) = true := by
        simpa using hq 0 (by omega)
      cases hb : backend st.calls with
      | success t' =>
        rw [hb] at h0
        simp [isQuotaOutcome] at h0
      | failure e =>
        rw [hb] at h0
        have he : isQuotaError e = true := by simpa [isQuotaOutcome] using h0
        dsimp only
        rw [if_pos he]
        have hq' : ∀ i, i < k' →
            isQuotaOutcome (backend (st.calls + 1 + i)) = true := by
          intro i hi
          have h := hq (i + 1) (by omega)
          rwa [show st.calls + (i + 1) = st.calls + 1 + i by omega] at h
        have hs' : backend (st.calls + 1 + k') = .success t := by
          rwa [show st.calls + (k' + 1) = st.calls + 1 + k' by omega] at hs
        obtain ⟨m, h1, hm, hc⟩ := ih k' ⟨setAdd
          ((FALLBACK_MODELS.find?
              (fun x => !((getAvailableModel st.exhausted).2.contains x))).getD
            (FALLBACK_MODELS.headD ""))
          (getAvailableModel st.exhausted).2, st.calls + 1⟩ t (by omega) hq' hs'
        refine ⟨m, h1, hm, ?_⟩
        rw [hc]
        show st.calls + 1 + k' + 1 = st.calls + (k' + 1) + 1
        omega

theorem contains_iff_mem_str {s : String} {l : List String} :
    l.contains s = true ↔ s ∈ l :=
  List.elem_iff

theorem getAvailableModel_keep {ex : List String}
    (h : ∃ m ∈ FALLBACK_MODELS, m ∉ ex) : (getAvailableModel ex).2 = ex := by
  obtain ⟨m, hm, hnot⟩ := h
  unfold getAvailableModel
  cases hfind : FALLBACK_MODELS.find? (fun x => !(ex.contains x)) with
  | none =>
    exfalso
    have := List.find?_eq_none.mp hfind m hm
    simp only [Bool.not_eq_true', Bool.not_eq_false] at this
    exact hnot (contains_iff_mem_str.mp this)
  | some mf => rfl

theorem getAvailableModel_first {ex : List String}
    (h : ∃ m ∈ FALLBACK_MODELS, m ∉ ex) :
    (FALLBACK_MODELS.filter (fun x => !(ex.contains x))).head? =
      some (getAvailableModel ex).1 := by
  obtain ⟨m, hm, hnot⟩ := h
  unfold getAvailableModel
  cases hfind : FALLBACK_MODELS.find? (fun x => !(ex.contains x)) with
  | none =>
    exfalso
    have := List.find?_eq_none.mp hfind m hm
    simp only [Bool.not_eq_true', Bool.not_eq_false] at this
    exact hnot (contains_iff_mem_str.mp this)
  | some mf =>
    rw [← find?_eq_head?_filter, hfind]

/-- Claim C1: five consecutive quota-classified failures make
`generateWithFallback` raise the terminal all-models-exhausted error after
exactly `roster.length = 5` attempts, while fewer than five quota failures
followed by a success return that success (no error surfaced), having
consumed exactly the failing calls plus the successful one. -/
theorem claim_C1 (backend : Nat → CallOutcome) (ex₀ : List String) :
    FALLBACK_MODELS.length = 5 ∧
    ((∀ i, i < 5 → isQuotaOutcome (backend i) = true) →
      (generateWithFallback backend 0 ⟨ex₀, 0⟩).1 = .allExhausted ∧
      (generateWithFallback backend 0 ⟨ex₀, 0⟩).2.calls = 5) ∧
    (∀ k t, k < 5 → (∀ i, i < k → isQuotaOutcome (backend i) = true) →
      backend k = .success t →
      ∃ m, (generateWithFallback backend 0 ⟨ex₀, 0⟩).1 = .ok t m ∧
        m ∈ FALLBACK_MODELS ∧
        (generateWithFallback backend 0 ⟨ex₀, 0⟩).2.calls = k + 1) := by
  refine ⟨rfl, ?_, ?_⟩
  · intro hq
    have h := generateWithFallbackAux_exhaust backend 5 ⟨ex₀, 0⟩
      (fun i hi => by simpa using hq i hi)
    exact ⟨h.1, h.2⟩
  · intro k t hk hq hs
    have h := generateWithFallbackAux_success backend 5 k ⟨ex₀, 0⟩ t hk
      (fun i hi => by simpa using hq i hi) (by simpa using hs)
    simpa using h

/-- Witness for C1: the constantly-429 backend satisfies the quota-failure
hypothesis, and the terminal error is raised. -/
theorem claim_C1_witness :
    (∀ i, i < 5 → isQuotaOutcome (alwaysQuotaBackend i) = true) ∧
    (generateWithFallback alwaysQuotaBackend 0 ⟨[], 0⟩).1 = .allExhausted := by
  have hq : ∀ i, i < 5 → isQuotaOutcome (alwaysQuotaBackend i) = true :=
    fun i _ => rfl
  exact ⟨hq, ((claim_C1 alwaysQuotaBackend []).2.1 hq).1⟩

/-- Claim C5: the exhausted set stays a subset of the roster across any run
of `generateWithFallback`; model selection returns the first roster entry
outside the exhausted set when one exists (leaving the set alone), and
clears the set and returns the first roster entry when all are exhausted. -/
theorem claim_C5 :
    (∀ ex : List String, (∃ m ∈ FALLBACK_MODELS, m ∉ ex) →
      (getAvailableModel ex).2 = ex ∧
      (FALLBACK_MODELS.filter (fun x => !(ex.contains x))).head? =
        some (getAvailableModel ex).1) ∧
    (∀ ex : List String, (∀ m ∈ FALLBACK_MODELS, m ∈ ex) →
      getAvailableModel ex = (FALLBACK_MODELS.headD "", [])) ∧
    (∀ backend retryCount st, st.exhausted ⊆ FALLBACK_MODELS →
      (generateWithFallback backend retryCount st).2.exhausted ⊆ FALLBACK_MODELS) := by
  refine ⟨?_, ?_, ?_⟩
  · intro ex h
    exact ⟨getAvailableModel_keep h, getAvailableModel_first h⟩
  · intro ex h
    unfold getAvailableModel
    cases hfind : FALLBACK_MODELS.find? (fun x => !(ex.contains x)) with
    | none => rfl
    | some mf =>
      exfalso
      have hp := List.find?_some hfind
      have hmem := List.mem_of_find?_eq_some hfind
      simp only [Bool.not_eq_true'] at hp
      have hin := contains_iff_mem_str.mpr (h mf hmem)
      rw [hp] at hin
      exact Bool.false_ne_true hin
  · intro backend retryCount st hst
    exact generateWithFallbackAux_sub backend (maxRetries - retryCount) st hst

/-- Witness for C5: instantiate the three parts at a concrete exhausted set,
backend and state. -/
theorem claim_C5_witness :
    (∃ m ∈ FALLBACK_MODELS, m ∉ ["gemini-2.5-flash"]) ∧
    (getAvailableModel ["gemini-2.5-flash"]).2 = ["gemini-2.5-flash"] ∧
    (∀ m ∈ FALLBACK_MODELS, m ∈ FALLBACK_MODELS) ∧
    getAvailableModel FALLBACK_MODELS = (FALLBACK_MODELS.headD "", []) ∧
    (FBState.mk ["gemini-2.5-flash"] 0).exhausted ⊆ FALLBACK_MODELS ∧
    (generateWithFallback alwaysQuotaBackend 0
        ⟨["gemini-2.5-flash"], 0⟩).2.exhausted ⊆ FALLBACK_MODELS := by
  have h1 : ∃ m ∈ FALLBACK_MODELS, m ∉ ["gemini-2.5-flash"] := by decide
  have h2 : ∀ m ∈ FALLBACK_MODELS, m ∈ FALLBACK_MODELS := fun m hm => hm
  have h3 : (FBState.mk ["gemini-2.5-flash"] 0).exhausted ⊆ FALLBACK_MODELS := by
    intro x hx
    simp only [List.mem_singleton] at hx
    subst hx
    decide
  exact ⟨h1, (claim_C5.1 _ h1).1, h2, claim_C5.2.1 _ h2, h3,
    claim_C5.2.2 alwaysQuotaBackend 0 _ h3⟩

/-- Counterexample to C8 as stated: with every roster model exhausted on
entry, a non-quota failure still leaves the exhausted set changed — model
selection's optimistic reset cleared it before the backend call, so the
whole-call postcondition "the exhausted set is unchanged" fails. -/
theorem claim_C8_counterexample :
    (generateWithFallback badRequestBackend 0 ⟨FALLBACK_MODELS, 0⟩).1 =
      .error ⟨some 400, some "bad".data⟩ ∧
    (generateWithFallback badRequestBackend 0 ⟨FALLBACK_MODELS, 0⟩).2 =
      ⟨[], 1⟩ ∧
    isQuotaError ⟨some 400, some "bad".data⟩ = false ∧
    FALLBACK_MODELS ≠ ([] : List String) := by
  decide

/-- Claim C8, amended: a non-quota-classified failure on the first backend
call is propagated immediately — no retry, exactly one call — and no model
is added to the exhausted set; the set is unchanged whenever some roster
model was still available on entry, the only exception being the
optimistic reset that clears an all-exhausted set during model selection. -/
theorem claim_C8_amended (backend : Nat → CallOutcome) (st : FBState)
    (e : GenError) (hfail : backend st.calls = .failure e)
    (hnq : isQuotaError e = false) :
    generateWithFallback backend 0 st =
      (.error e, ⟨(getAvailableModel st.exhausted).2, st.calls + 1⟩) ∧
    (getAvailableModel st.exhausted).2 ⊆ st.exhausted ∧
    ((∃ m ∈ FALLBACK_MODELS, m ∉ st.exhausted) →
      (getAvailableModel st.exhausted).2 = st.exhausted) := by
  refine ⟨?_, getAvailableModel_sub st.exhausted, fun h => getAvailableModel_keep h⟩
  show generateWithFallbackAux backend (maxRetries - 0) st = _
  rw [show maxRetries - 0 = 4 + 1 from rfl]
  unfold generateWithFallbackAux
  dsimp only
  rw [hfail]
  dsimp only
  rw [if_neg (by simp [hnq])]

/-- Witness for the amended C8 at a concrete backend and state. -/
theorem claim_C8_amended_witness :
    badRequestBackend (FBState.mk [] 0).calls =
      .failure ⟨some 400, some "bad".data⟩ ∧
    isQuotaError ⟨some 400, some "bad".data⟩ = false ∧
    generateWithFallback badRequestBackend 0 ⟨[], 0⟩ =
      (.error ⟨some 400, some "bad".data⟩,
        ⟨(getAvailableModel (FBState.mk [] 0).exhausted).2, (FBState.mk [] 0).calls + 1⟩) := by
  refine ⟨rfl, by decide, ?_⟩
  exact (claim_C8_amended badRequestBackend ⟨[], 0⟩ ⟨some 400, some "bad".data⟩
    rfl (by decide)).1

/-! ## Chunker lemmas -/

theorem boundaryMatchAt_some {region : List Char} {i : Nat} {m : List Char}
    (h : boundaryMatchAt region i = some m) :
    2 ≤ m.length ∧ m.isPrefixOf (region.drop i) = true := by
  unfold boundaryMatchAt at h
  cases hd : region.drop i with
  | nil => rw [hd] at h; exact absurd h (by simp)
  | cons c rest =>
    rw [hd] at h
    dsimp only at h
    by_cases hp : isSentencePunct c = true
    · rw [if_pos hp] at h
      by_cases hk : (rest.takeWhile isWsChar).length = 0
      · rw [if_pos hk] at h
        exact absurd h (by simp)
      · rw [if_neg hk] at h
        cases hh : (rest.drop (rest.takeWhile isWsChar).length).head? with
        | none => rw [hh] at h; exact absurd h (by simp)
        | some d =>
          rw [hh] at h
          dsimp only at h
          by_cases hu : isUpperAZ d = true
          · rw [if_pos hu] at h
            have hm : m = c :: rest.take (rest.takeWhile isWsChar).length := by
              injection h with h
              exact h.symm
            subst hm
            refine ⟨?_, ?_⟩
            · have h2 : (rest.takeWhile isWsChar).length ≤ rest.length :=
                (List.takeWhile_prefix _).length_le
              simp only [List.length_cons, List.length_take]
              omega
            · rw [List.isPrefixOf_iff_prefix]
              exact List.cons_prefix_cons.mpr ⟨rfl, List.take_prefix _ _⟩
          · rw [if_neg hu] at h
            exact absurd h (by simp)
    · rw [if_neg hp] at h
      exact absurd h (by simp)

theorem boundaryMatchesP_mem {region : List Char} {p : Nat × List Char}
    (h : p ∈ boundaryMatchesP region) :
    p.1 < region.length ∧ boundaryMatchAt region p.1 = some p.2 := by
  unfold boundaryMatchesP at h
  rw [List.mem_filterMap] at h
  obtain ⟨i, hi, hmap⟩ := h
  rw [List.mem_range] at hi
  cases hb : boundaryMatchAt region i with
  | none => rw [hb] at hmap; exact absurd hmap (by simp)
  | some m =>
    rw [hb] at hmap
    simp only [Option.map_some'] at hmap
    injection hmap with hmap
    subst hmap
    exact ⟨hi, hb⟩

theorem boundaryMatches_getLast {region : List Char} {lastM : List Char}
    (h : (boundaryMatches region).getLast? = some lastM) :
    ∃ q, (boundaryMatchesP region).getLast? = some q ∧ q.2 = lastM ∧
      q.1 < region.length ∧ boundaryMatchAt region q.1 = some lastM := by
  unfold boundaryMatches at h
  rw [List.getLast?_map] at h
  cases hq : (boundaryMatchesP region).getLast? with
  | none => rw [hq] at h; exact absurd h (by simp)
  | some q =>
    rw [hq] at h
    simp only [Option.map_some'] at h
    injection h with h
    have hmem := List.mem_of_mem_getLast? hq
    obtain ⟨h1, h2⟩ := boundaryMatchesP_mem hmem
    subst h
    exact ⟨q, rfl, rfl, h1, h2⟩

theorem searchRegionOf_length (t : List Char) (e : Nat) :
    (searchRegionOf t e).length =
      min (min (e + 200) t.length - (e - 200)) (t.length - (e - 200)) := by
  simp [searchRegionOf, jsSubstring]

theorem computeEnd_lower (t : List Char) (s : Nat) :
    s + 19802 ≤ computeEnd t s := by
  unfold computeEnd
  by_cases hlt : s + CHUNK_SIZE < t.length
  · rw [if_pos hlt]
    cases hlast : (boundaryMatches (searchRegionOf t (s + CHUNK_SIZE))).getLast? with
    | none =>
      rw [Option.elim_none]
      simp only [CHUNK_SIZE]
      omega
    | some lastM =>
      rw [Option.elim_some]
      cases hidx : lastIndexOf (searchRegionOf t (s + CHUNK_SIZE)) lastM with
      | none =>
        rw [Option.elim_none]
        simp only [CHUNK_SIZE]
        omega
      | some pos =>
        rw [Option.elim_some]
        obtain ⟨q, _, _, _, hbm⟩ := boundaryMatches_getLast hlast
        have h2 := (boundaryMatchAt_some hbm).1
        simp only [CHUNK_SIZE]
        omega
  · rw [if_neg hlt]
    simp only [CHUNK_SIZE]
    omega

theorem computeEnd_le (t : List Char) (s : Nat) :
    computeEnd t s ≤ s + CHUNK_SIZE + 200 ∧
    (s + CHUNK_SIZE < t.length → computeEnd t s ≤ t.length) := by
  unfold computeEnd
  by_cases hlt : s + CHUNK_SIZE < t.length
  · rw [if_pos hlt]
    cases hlast : (boundaryMatches (searchRegionOf t (s + CHUNK_SIZE))).getLast? with
    | none =>
      rw [Option.elim_none]
      simp only [CHUNK_SIZE]
      omega
    | some lastM =>
      rw [Option.elim_some]
      cases hidx : lastIndexOf (searchRegionOf t (s + CHUNK_SIZE)) lastM with
      | none =>
        rw [Option.elim_none]
        simp only [CHUNK_SIZE]
        omega
      | some pos =>
        rw [Option.elim_some]
        obtain ⟨hpre, hposle⟩ := lastIndexOf_some hidx
        have hlen : lastM.length ≤ (searchRegionOf t (s + CHUNK_SIZE)).length - pos := by
          have := (List.isPrefixOf_iff_prefix.mp hpre).length_le
          simpa using this
        have hreg := searchRegionOf_length t (s + CHUNK_SIZE)
        simp only [CHUNK_SIZE] at hreg hposle hlen ⊢
        omega
  · rw [if_neg hlt]
    simp only [CHUNK_SIZE]
    omega

theorem chunkLoopAux_succ (t : List Char) (f s : Nat) :
    chunkLoopAux t (f + 1) s =
      if s < t.length then
        if t.length - OVERLAP_SIZE ≤ computeEnd t s - OVERLAP_SIZE then
          [jsSubstring t s (computeEnd t s)]
        else jsSubstring t s (computeEnd t s) ::
          chunkLoopAux t f (computeEnd t s - OVERLAP_SIZE)
      else [] := rfl

theorem chunkIntervalsAux_succ (t : List Char) (f s : Nat) :
    chunkIntervalsAux t (f + 1) s =
      if s < t.length then
        if t.length - OVERLAP_SIZE ≤ computeEnd t s - OVERLAP_SIZE then
          [(s, computeEnd t s)]
        else (s, computeEnd t s) ::
          chunkIntervalsAux t f (computeEnd t s - OVERLAP_SIZE)
      else [] := rfl

theorem chunkLoopAux_eq_map (t : List Char) :
    ∀ fuel s, chunkLoopAux t fuel s =
      (chunkIntervalsAux t fuel s).map (fun p => jsSubstring t p.1 p.2) := by
  intro fuel
  induction fuel with
  | zero => intro s; rfl
  | succ f ih =>
    intro s
    rw [chunkLoopAux_succ, chunkIntervalsAux_succ]
    by_cases hs : s < t.length
    · rw [if_pos hs, if_pos hs]
      by_cases hbr : t.length - OVERLAP_SIZE ≤ computeEnd t s - OVERLAP_SIZE
      · rw [if_pos hbr, if_pos hbr]
        rfl
      · rw [if_neg hbr, if_neg hbr]
        rw [List.map_cons, ih]
    · rw [if_neg hs, if_neg hs]
      rfl

theorem chain'_of_chain'_mem {α : Type _} {R S : α → α → Prop} {P : α → Prop} :
    ∀ l : List α, List.Chain' R l → (∀ p ∈ l, P p) →
      (∀ a b, P a → P b → R a b → S a b) → List.Chain' S l := by
  intro l
  induction l with
  | nil => intro _ _ _; exact List.chain'_nil
  | cons a l ih =>
    intro hc hm himp
    cases l with
    | nil => exact List.chain'_singleton a
    | cons b l2 =>
      rw [List.chain'_cons] at hc ⊢
      exact ⟨himp a b (hm a (by simp)) (hm b (by simp)) hc.1,
        ih hc.2 (fun p hp => hm p (List.mem_cons_of_mem a hp)) himp⟩

theorem chunkIntervalsAux_spec (t : List Char) :
    ∀ fuel s, s < t.length → t.length - s ≤ fuel →
      (∃ tl, chunkIntervalsAux t fuel s = (s, computeEnd t s) :: tl) ∧
      List.Chain' (fun p q => q.1 + OVERLAP_SIZE = p.2 ∧ p.2 < t.length)
        (chunkIntervalsAux t fuel s) ∧
      (∀ p, (chunkIntervalsAux t fuel s).getLast? = some p → t.length ≤ p.2) ∧
      (∀ p ∈ chunkIntervalsAux t fuel s,
        s ≤ p.1 ∧ p.1 < t.length ∧ p.2 = computeEnd t p.1) ∧
      (∀ i, s ≤ i → i < t.length →
        ∃ p ∈ chunkIntervalsAux t fuel s, p.1 ≤ i ∧ i < p.2) := by
  intro fuel
  induction fuel with
  | zero => intro s hs hf; omega
  | succ f ih =>
    intro s hs hf
    have hlow : s + 19802 ≤ computeEnd t s := computeEnd_lower t s
    rw [chunkIntervalsAux_succ, if_pos hs]
    by_cases hbr : t.length - OVERLAP_SIZE ≤ computeEnd t s - OVERLAP_SIZE
    · rw [if_pos hbr]
      have hcov : t.length ≤ computeEnd t s := by
        simp only [OVERLAP_SIZE] at hbr
        omega
      refine ⟨⟨[], rfl⟩, List.chain'_singleton _, ?_, ?_, ?_⟩
      · intro p hp
        simp only [List.getLast?_singleton, Option.some.injEq] at hp
        subst hp
        exact hcov
      · intro p hp
        simp only [List.mem_singleton] at hp
        subst hp
        exact ⟨le_refl s, hs, rfl⟩
      · intro i hsi hil
        exact ⟨(s, computeEnd t s), by simp, hsi, by omega⟩
    · rw [if_neg hbr]
      have hend : computeEnd t s < t.length := by
        simp only [OVERLAP_SIZE] at hbr
        omega
      have hs' : computeEnd t s - OVERLAP_SIZE < t.length := by
        simp only [OVERLAP_SIZE]
        omega
      have hf' : t.length - (computeEnd t s - OVERLAP_SIZE) ≤ f := by
        simp only [OVERLAP_SIZE]
        omega
      obtain ⟨⟨tl, htl⟩, hchain, hlast, hmem, hcov⟩ :=
        ih (computeEnd t s - OVERLAP_SIZE) hs' hf'
      refine ⟨⟨chunkIntervalsAux t f (computeEnd t s - OVERLAP_SIZE), rfl⟩,
        ?_, ?_, ?_, ?_⟩
      · rw [htl] at hchain ⊢
        rw [List.chain'_cons]
        refine ⟨⟨?_, hend⟩, hchain⟩
        simp only [OVERLAP_SIZE]
        omega
      · intro p hp
        rw [htl] at hp
        rw [List.getLast?_cons_cons] at hp
        apply hlast
        rw [htl]
        exact hp
      · intro p hp
        rcases List.mem_cons.mp hp with hp | hp
        · subst hp
          exact ⟨le_refl s, hs, rfl⟩
        · obtain ⟨h1, h2, h3⟩ := hmem p hp
          refine ⟨?_, h2, h3⟩
          simp only [OVERLAP_SIZE] at h1
          omega
      · intro i hsi hil
        by_cases hie : i < computeEnd t s
        · exact ⟨(s, computeEnd t s), by simp, hsi, hie⟩
        · obtain ⟨p, hp, hp1, hp2⟩ := hcov i (by simp only [OVERLAP_SIZE]; omega) hil
          exact ⟨p, List.mem_cons_of_mem _ hp, hp1, hp2⟩

theorem chunkIntervalsAux_length (t : List Char) :
    ∀ fuel s, s < t.length → t.length - s ≤ fuel →
      (chunkIntervalsAux t fuel s).length * 19300 ≤ (t.length - s) + 19300 := by
  intro fuel
  induction fuel with
  | zero => intro s hs hf; omega
  | succ f ih =>
    intro s hs hf
    have hlow : s + 19802 ≤ computeEnd t s := computeEnd_lower t s
    rw [chunkIntervalsAux_succ, if_pos hs]
    by_cases hbr : t.length - OVERLAP_SIZE ≤ computeEnd t s - OVERLAP_SIZE
    · rw [if_pos hbr]
      simp only [List.length_singleton]
      omega
    · rw [if_neg hbr]
      have hend : computeEnd t s < t.length := by
        simp only [OVERLAP_SIZE] at hbr
        omega
      have hrec := ih (computeEnd t s - OVERLAP_SIZE)
        (by simp only [OVERLAP_SIZE]; omega)
        (by simp only [OVERLAP_SIZE]; omega)
      have hO : OVERLAP_SIZE = 500 := rfl
      simp only [List.length_cons]
      omega

/-! ## Claims C2, C4, C10 (chunking structure, termination, size bound) -/

theorem plainLongText_length : plainLongText.length = 20001 := by
  unfold plainLongText
  rw [List.length_replicate]

theorem snapCounterText_length : snapCounterText.length = 20210 := by
  unfold snapCounterText
  rw [List.length_append, List.length_append, List.length_replicate,
    List.length_replicate]
  rfl

/-- Claim C2: on a transcript longer than `CHUNK_SIZE`, the chunks are
exactly the substrings of the window-interval list; the first window starts
at 0, each later window starts exactly `OVERLAP_SIZE` characters before its
predecessor's end — its first `OVERLAP_SIZE` characters equal the
predecessor chunk's last `OVERLAP_SIZE` characters — the windows cover
every text position with no gaps, and the last window reaches the end of
the text. -/
theorem claim_C2 (t : List Char) (h : CHUNK_SIZE < t.length) :
    chunkTranscript t =
      (chunkIntervals t).map (fun p => jsSubstring t p.1 p.2) ∧
    (∃ tl, chunkIntervals t = (0, computeEnd t 0) :: tl) ∧
    List.Chain'
      (fun p q => q.1 + OVERLAP_SIZE = p.2 ∧
        (jsSubstring t q.1 q.2).take OVERLAP_SIZE =
          (jsSubstring t p.1 p.2).drop (p.2 - p.1 - OVERLAP_SIZE))
      (chunkIntervals t) ∧
    (∀ p, (chunkIntervals t).getLast? = some p → t.length ≤ p.2) ∧
    (∀ i, i < t.length → ∃ p ∈ chunkIntervals t, p.1 ≤ i ∧ i < p.2) := by
  have hC : CHUNK_SIZE = 20000 := rfl
  have h0 : 0 < t.length := by omega
  obtain ⟨hhead, hchain, hlast, hmem, hcov⟩ :=
    chunkIntervalsAux_spec t t.length 0 h0 (by omega)
  refine ⟨?_, hhead, ?_, hlast, fun i hi => hcov i (Nat.zero_le i) hi⟩
  · unfold chunkTranscript
    rw [if_neg (by omega)]
    exact chunkLoopAux_eq_map t t.length 0
  · refine chain'_of_chain'_mem _ hchain hmem ?_
    rintro a b ⟨ha0, ha1, ha2⟩ ⟨hb0, hb1, hb2⟩ ⟨hr1, hr2⟩
    refine ⟨hr1, ?_⟩
    have hO : OVERLAP_SIZE = 500 := rfl
    have h1 : a.1 + 19802 ≤ a.2 := by rw [ha2]; exact computeEnd_lower t a.1
    have h2 : b.1 + 19802 ≤ b.2 := by rw [hb2]; exact computeEnd_lower t b.1
    unfold jsSubstring
    rw [List.take_take, List.drop_take, List.drop_drop]
    rw [show min OVERLAP_SIZE (b.2 - b.1) = 500 by omega]
    rw [show a.2 - a.1 - (a.2 - a.1 - OVERLAP_SIZE) = 500 by omega]
    rw [show a.1 + (a.2 - a.1 - OVERLAP_SIZE) = b.1 by omega]

/-- Witness for C2 at a concrete 20001-character transcript. -/
theorem claim_C2_witness :
    CHUNK_SIZE < plainLongText.length ∧
    (chunkTranscript plainLongText =
      (chunkIntervals plainLongText).map
        (fun p => jsSubstring plainLongText p.1 p.2) ∧
    (∃ tl, chunkIntervals plainLongText =
      (0, computeEnd plainLongText 0) :: tl) ∧
    List.Chain'
      (fun p q => q.1 + OVERLAP_SIZE = p.2 ∧
        (jsSubstring plainLongText q.1 q.2).take OVERLAP_SIZE =
          (jsSubstring plainLongText p.1 p.2).drop (p.2 - p.1 - OVERLAP_SIZE))
      (chunkIntervals plainLongText) ∧
    (∀ p, (chunkIntervals plainLongText).getLast? = some p →
      plainLongText.length ≤ p.2) ∧
    (∀ i, i < plainLongText.length →
      ∃ p ∈ chunkIntervals plainLongText, p.1 ≤ i ∧ i < p.2)) := by
  have h : CHUNK_SIZE < plainLongText.length := by
    rw [plainLongText_length]
    decide
  exact ⟨h, claim_C2 plainLongText h⟩

/-- Claim C4: chunking always terminates (the Lean embedding is a total
function) with a chunk count bounded by `len / (maxSize − 200 − overlap) + 1`;
on long inputs every iteration advances the window start by at least
`maxSize − 200 − overlap` characters, and the loop stops exactly when the
computed next start would leave at most `overlapSize` characters. -/
theorem claim_C4 (t : List Char) :
    (chunkTranscript t).length ≤
      t.length / (CHUNK_SIZE - 200 - OVERLAP_SIZE) + 1 ∧
    (CHUNK_SIZE < t.length →
      List.Chain' (fun p q => p.1 + (CHUNK_SIZE - 200 - OVERLAP_SIZE) ≤ q.1)
        (chunkIntervals t) ∧
      (∀ p, (chunkIntervals t).getLast? = some p →
        t.length - (p.2 - OVERLAP_SIZE) ≤ OVERLAP_SIZE)) := by
  have hC : CHUNK_SIZE = 20000 := rfl
  have hO : OVERLAP_SIZE = 500 := rfl
  constructor
  · rw [show CHUNK_SIZE - 200 - OVERLAP_SIZE = 19300 from rfl]
    unfold chunkTranscript
    by_cases hl : t.length ≤ CHUNK_SIZE
    · rw [if_pos hl]
      simp only [List.length_singleton]
      omega
    · rw [if_neg hl]
      rw [chunkLoopAux_eq_map, List.length_map]
      have hlen := chunkIntervalsAux_length t t.length 0 (by omega) (by omega)
      have hdiv : (chunkIntervalsAux t t.length 0).length - 1 ≤
          t.length / 19300 := by
        rw [Nat.le_div_iff_mul_le (by norm_num)]
        omega
      omega
  · intro h
    obtain ⟨hhead, hchain, hlast, hmem, hcov⟩ :=
      chunkIntervalsAux_spec t t.length 0 (by omega) (by omega)
    constructor
    · refine chain'_of_chain'_mem _ hchain hmem ?_
      rintro a b ⟨ha0, ha1, ha2⟩ _ ⟨hr1, _⟩
      have h1 : a.1 + 19802 ≤ a.2 := by rw [ha2]; exact computeEnd_lower t a.1
      omega
    · intro p hp
      have hcov2 := hlast p hp
      obtain ⟨_, _, hp2⟩ := hmem p (List.mem_of_mem_getLast? hp)
      have h1 : p.1 + 19802 ≤ p.2 := by rw [hp2]; exact computeEnd_lower t p.1
      omega

/-- Witness for C4 at a concrete 20001-character transcript. -/
theorem claim_C4_witness :
    (chunkTranscript plainLongText).length ≤
      plainLongText.length / (CHUNK_SIZE - 200 - OVERLAP_SIZE) + 1 ∧
    (CHUNK_SIZE < plainLongText.length ∧
      List.Chain'
        (fun p q => p.1 + (CHUNK_SIZE - 200 - OVERLAP_SIZE) ≤ q.1)
        (chunkIntervals plainLongText) ∧
      (∀ p, (chunkIntervals plainLongText).getLast? = some p →
        plainLongText.length - (p.2 - OVERLAP_SIZE) ≤ OVERLAP_SIZE)) := by
  have h : CHUNK_SIZE < plainLongText.length := by
    rw [plainLongText_length]
    decide
  obtain ⟨h1, h2⟩ := claim_C4 plainLongText
  exact ⟨h1, h, h2 h⟩

/-- Claim C10: every chunk `chunkTranscript` produces is at most
`CHUNK_SIZE + 200` characters long — the sentence-boundary snap can push a
window at most 200 characters past the nominal boundary. -/
theorem claim_C10 (t : List Char) :
    ∀ c ∈ chunkTranscript t, c.length ≤ CHUNK_SIZE + 200 := by
  intro c hc
  have hC : CHUNK_SIZE = 20000 := rfl
  unfold chunkTranscript at hc
  by_cases hl : t.length ≤ CHUNK_SIZE
  · rw [if_pos hl] at hc
    simp only [List.mem_singleton] at hc
    subst hc
    omega
  · rw [if_neg hl] at hc
    rw [chunkLoopAux_eq_map, List.mem_map] at hc
    obtain ⟨p, hp, hceq⟩ := hc
    obtain ⟨_, _, _, hmem, _⟩ :=
      chunkIntervalsAux_spec t t.length 0 (by omega) (by omega)
    obtain ⟨_, hp1, hp2⟩ := hmem p hp
    have hup := (computeEnd_le t p.1).1
    have hle : (jsSubstring t p.1 p.2).length ≤ p.2 - p.1 := by
      simp only [jsSubstring, List.length_take, List.length_drop]
      exact Nat.min_le_left _ _
    rw [← hceq]
    omega

/-- Witness for C10 at a concrete one-character transcript. -/
theorem claim_C10_witness :
    ['a'] ∈ chunkTranscript ['a'] ∧
    (['a'] : List Char).length ≤ CHUNK_SIZE + 200 := by
  have hm : ['a'] ∈ chunkTranscript ['a'] := by decide
  exact ⟨hm, claim_C10 ['a'] ['a'] hm⟩

/-! ## Claim C6 (sentence-boundary snapping) -/

set_option maxRecDepth 20000 in
/-- Counterexample to C6 as stated: on `snapCounterText` the only
punctuation-whitespace-uppercase occurrence in the search region ends at
offset 4 (overall position 19804), but the code's `lastIndexOf` of the
matched separator string `". "` lands at a later occurrence that precedes a
lower-case letter, so the first window ends at 19809, not at the boundary
the claim describes. -/
theorem claim_C6_counterexample :
    computeEnd snapCounterText 0 = 19809 ∧
    specComputeEnd snapCounterText 0 = 19804 ∧
    (chunkTranscript snapCounterText).head? =
      some (jsSubstring snapCounterText 0 19809) ∧
    jsSubstring snapCounterText 0 19809 ≠ jsSubstring snapCounterText 0 19804 := by
  have hlen : snapCounterText.length = 20210 := snapCounterText_length
  have hdrop : snapCounterText.drop 19800 =
      "xx. Bcc. e".data ++ List.replicate 400 'y' := by
    unfold snapCounterText
    exact List.drop_left' (by rw [List.length_replicate])
  have hreg : searchRegionOf snapCounterText 20000 =
      "xx. Bcc. e".data ++ List.replicate 390 'y' := by
    unfold searchRegionOf jsSubstring
    rw [hlen]
    norm_num
    rw [hdrop, List.take_append_eq_append_take,
      List.take_of_length_le (by decide), List.take_replicate]
    rw [show ("xx. Bcc. e".data).length = 10 from rfl]
    norm_num
  have hmatches : (boundaryMatches
      ("xx. Bcc. e".data ++ List.replicate 390 'y')).getLast? =
      some ". ".data := by decide
  have hmatchesP : (boundaryMatchesP
      ("xx. Bcc. e".data ++ List.replicate 390 'y')).getLast? =
      some (2, ". ".data) := by decide
  have hlastidx : lastIndexOf
      ("xx. Bcc. e".data ++ List.replicate 390 'y') ". ".data = some 7 := by
    decide
  have h0C : (0 : Nat) + CHUNK_SIZE = 20000 := rfl
  have hce : computeEnd snapCounterText 0 = 19809 := by
    unfold computeEnd
    rw [h0C, if_pos (by rw [hlen]; norm_num), hreg, hmatches, Option.elim_some,
      hlastidx, Option.elim_some]
    decide
  have hse : specComputeEnd snapCounterText 0 = 19804 := by
    unfold specComputeEnd
    rw [h0C, if_pos (by rw [hlen]; norm_num), hreg, hmatchesP, Option.elim_some]
    decide
  refine ⟨hce, hse, ?_, ?_⟩
  · unfold chunkTranscript
    rw [if_neg (by rw [hlen]; norm_num [CHUNK_SIZE])]
    rw [hlen]
    rw [show (20210 : Nat) = 20209 + 1 from rfl]
    rw [chunkLoopAux_succ, hce, hlen]
    rw [if_pos (by norm_num)]
    rw [if_neg (by decide)]
    rfl
  · intro hcon
    have hlc := congrArg List.length hcon
    simp only [jsSubstring, List.length_take, List.length_drop, hlen] at hlc
    norm_num at hlc

/-- Claim C6, amended: when the tentative end is interior, the window
boundary the code picks is at or after the end of the last
punctuation-whitespace-uppercase occurrence in the ±200 region (it lands
just after the `lastIndexOf` occurrence of the last matched separator
string, which need not itself precede an upper-case letter), never exceeds
the region, and falls back to the raw `maxSize` boundary exactly when the
pattern has no match. -/
theorem claim_C6_amended (t : List Char) (s : Nat)
    (h : s + CHUNK_SIZE < t.length) :
    specComputeEnd t s ≤ computeEnd t s ∧
    computeEnd t s ≤ min (s + CHUNK_SIZE + 200) t.length ∧
    (boundaryMatchesP (searchRegionOf t (s + CHUNK_SIZE)) = [] →
      computeEnd t s = s + CHUNK_SIZE ∧ specComputeEnd t s = s + CHUNK_SIZE) := by
  refine ⟨?_, ?_, ?_⟩
  · unfold specComputeEnd computeEnd
    rw [if_pos h, if_pos h]
    cases hlast : (boundaryMatchesP (searchRegionOf t (s + CHUNK_SIZE))).getLast? with
    | none =>
      have hm : (boundaryMatches (searchRegionOf t (s + CHUNK_SIZE))).getLast? =
          none := by
        unfold boundaryMatches
        rw [List.getLast?_map, hlast]
        rfl
      rw [hm]
      exact le_refl _
    | some q =>
      have hm : (boundaryMatches (searchRegionOf t (s + CHUNK_SIZE))).getLast? =
          some q.2 := by
        unfold boundaryMatches
        rw [List.getLast?_map, hlast]
        rfl
      rw [hm, Option.elim_some]
      rw [Option.elim_some]
      obtain ⟨hq1, hq2⟩ := boundaryMatchesP_mem (List.mem_of_mem_getLast? hlast)
      have hpre := (boundaryMatchAt_some hq2).2
      obtain ⟨j, hj, hpj⟩ := lastIndexOf_ge hpre (by omega)
      rw [hj, Option.elim_some]
      omega
  · have hb := computeEnd_le t s
    exact le_min hb.1 (hb.2 h)
  · intro hempty
    unfold specComputeEnd computeEnd
    rw [if_pos h, if_pos h]
    have h1 : (boundaryMatchesP (searchRegionOf t (s + CHUNK_SIZE))).getLast? =
        none := by rw [hempty]; rfl
    have h2 : (boundaryMatches (searchRegionOf t (s + CHUNK_SIZE))).getLast? =
        none := by
      unfold boundaryMatches
      rw [hempty]
      rfl
    rw [h1, h2]
    exact ⟨rfl, rfl⟩

/-- Witness for the amended C6 at a concrete 20001-character transcript. -/
theorem claim_C6_amended_witness :
    0 + CHUNK_SIZE < plainLongText.length ∧
    (specComputeEnd plainLongText 0 ≤ computeEnd plainLongText 0 ∧
    computeEnd plainLongText 0 ≤ min (0 + CHUNK_SIZE + 200) plainLongText.length ∧
    (boundaryMatchesP (searchRegionOf plainLongText (0 + CHUNK_SIZE)) = [] →
      computeEnd plainLongText 0 = 0 + CHUNK_SIZE ∧
      specComputeEnd plainLongText 0 = 0 + CHUNK_SIZE)) := by
  have h : 0 + CHUNK_SIZE < plainLongText.length := by
    rw [plainLongText_length]
    decide
  exact ⟨h, claim_C6_amended plainLongText 0 h⟩

/-! ## Claim C7 (summary extraction) -/

theorem extractSummary_eq (content : List Char) :
    extractSummary content =
      if (((allHeadings content).take 10).map stripHeadingMarker).length = 0 then
        content.drop (content.length - 500)
      else
        "Sections covered: ".data ++
          List.intercalate ", ".data
            (((allHeadings content).take 10).map stripHeadingMarker) := rfl

/-- Claim C7: with at least ten heading matches, `extractSummary` returns
exactly the first ten, in order, marker-stripped, joined as the flat
sections-covered listing; with no heading matches it returns the last 500
characters of the input verbatim. -/
theorem claim_C7 (content : List Char) :
    (10 ≤ (allHeadings content).length →
      extractSummary content =
        "Sections covered: ".data ++
          List.intercalate ", ".data
            (((allHeadings content).take 10).map stripHeadingMarker)) ∧
    (allHeadings content = [] →
      extractSummary content = content.drop (content.length - 500)) := by
  constructor
  · intro h10
    have hne :
        ¬((((allHeadings content).take 10).map stripHeadingMarker).length = 0) := by
      simp only [List.length_map, List.length_take]
      omega
    rw [extractSummary_eq, if_neg hne]
  · intro hnil
    rw [extractSummary_eq, if_pos (by rw [hnil]; rfl)]

/-- Witness for C7 at a concrete ten-heading content string. -/
theorem claim_C7_witness :
    10 ≤ (allHeadings tenHeadings).length ∧
    extractSummary tenHeadings =
      "Sections covered: ".data ++
        List.intercalate ", ".data
          (((allHeadings tenHeadings).take 10).map stripHeadingMarker) := by
  have h : 10 ≤ (allHeadings tenHeadings).length := by decide
  exact ⟨h, (claim_C7 tenHeadings).1 h⟩

/-! ## Claim C3 (merge deduplication) -/

theorem findHeadingAux_zero (rt : Bool) (s : List Char) (p : Nat) :
    findHeadingAux rt s 0 p = none := rfl

theorem findHeadingAux_succ (rt : Bool) (s : List Char) (f p : Nat) :
    findHeadingAux rt s (f + 1) p =
      if p < s.length then
        if isLineStart s p then
          Option.elim (matchHeadingAt rt s p)
            (findHeadingAux rt s f (p + 1))
            (fun m => some (p, m))
        else findHeadingAux rt s f (p + 1)
      else none := rfl

theorem findHeadingAux_some {rt : Bool} {s : List Char} :
    ∀ {fuel p i : Nat} {m : List Char},
      findHeadingAux rt s fuel p = some (i, m) →
      matchHeadingAt rt s i = some m ∧ p ≤ i := by
  intro fuel
  induction fuel with
  | zero =>
    intro p i m h
    rw [findHeadingAux_zero] at h
    exact Option.noConfusion h
  | succ f ih =>
    intro p i m h
    rw [findHeadingAux_succ] at h
    by_cases hp : p < s.length
    · rw [if_pos hp] at h
      by_cases hls : isLineStart s p = true
      · rw [if_pos hls] at h
        cases hm : matchHeadingAt rt s p with
        | none =>
          rw [hm, Option.elim_none] at h
          obtain ⟨h1, h2⟩ := ih h
          exact ⟨h1, by omega⟩
        | some m' =>
          rw [hm, Option.elim_some] at h
          injection h with h
          cases h
          exact ⟨hm, le_refl p⟩
      · rw [if_neg hls] at h
        obtain ⟨h1, h2⟩ := ih h
        exact ⟨h1, by omega⟩
    · rw [if_neg hp] at h
      exact Option.noConfusion h

theorem matchHeadingAt_some_len {rt : Bool} {s : List Char} {i : Nat}
    {m : List Char} (h : matchHeadingAt rt s i = some m) : 1 ≤ m.length := by
  unfold matchHeadingAt at h
  cases hd : s.drop i with
  | nil =>
    rw [hd] at h
    exact Option.noConfusion h
  | cons c1 rest1 =>
    rw [hd] at h
    cases rest1 with
    | nil =>
      dsimp only at h
      by_cases h1 : (c1 == '#') = true
      · rw [if_pos h1] at h
        by_cases h2 : rt = true
        · rw [if_pos h2] at h
          exact Option.noConfusion h
        · rw [if_neg h2] at h
          obtain ⟨m', _, rfl⟩ := Option.map_eq_some'.mp h
          simp
      · rw [if_neg h1] at h
        exact Option.noConfusion h
    | cons c2 rest =>
      dsimp only at h
      by_cases h1 : (c1 == '#' && c2 == '#') = true
      · rw [if_pos h1] at h
        obtain ⟨m', _, rfl⟩ := Option.map_eq_some'.mp h
        simp
      · rw [if_neg h1] at h
        by_cases h2 : (c1 == '#') = true
        · rw [if_pos h2] at h
          by_cases h3 : rt = true
          · rw [if_pos h3] at h
            exact Option.noConfusion h
          · rw [if_neg h3] at h
            obtain ⟨m', _, rfl⟩ := Option.map_eq_some'.mp h
            simp
        · rw [if_neg h2] at h
          exact Option.noConfusion h

theorem stripTitleOverview_le (cur : List Char) :
    (stripTitleOverview cur).length ≤ cur.length := by
  unfold stripTitleOverview
  cases hf : findTitleAux cur cur.length 0 with
  | none =>
    rw [Option.elim_none]
  | some pl =>
    rw [Option.elim_some]
    simp only [List.length_append, List.length_take, List.length_drop]
    have := Nat.min_le_left pl.1 cur.length
    omega

theorem collapseAux_nil (f : Nat) : collapseAux (f + 1) [] = [] := rfl

theorem collapseAux_cons (f : Nat) (c : Char) (rest : List Char) :
    collapseAux (f + 1) (c :: rest) =
      if c == '\n' then
        if 4 ≤ 1 + (rest.takeWhile (fun d => d == '\n')).length then
          '\n' :: '\n' :: '\n' ::
            collapseAux f
              (rest.drop (1 + (rest.takeWhile (fun d => d == '\n')).length - 1))
        else c :: collapseAux f rest
      else c :: collapseAux f rest := rfl

theorem collapseAux_le : ∀ fuel l, (collapseAux fuel l).length ≤ l.length := by
  intro fuel
  induction fuel with
  | zero => intro l; exact le_refl _
  | succ f ih =>
    intro l
    cases l with
    | nil =>
      rw [collapseAux_nil]
    | cons c rest =>
      rw [collapseAux_cons]
      by_cases hc : (c == '\n') = true
      · rw [if_pos hc]
        by_cases hrun : 4 ≤ 1 + (rest.takeWhile (fun d => d == '\n')).length
        · rw [if_pos hrun]
          have h1 := ih
            (rest.drop (1 + (rest.takeWhile (fun d => d == '\n')).length - 1))
          have h2 : (rest.takeWhile (fun d => d == '\n')).length ≤ rest.length :=
            (List.takeWhile_prefix _).length_le
          simp only [List.length_cons, List.length_drop] at h1 ⊢
          omega
        · rw [if_neg hrun]
          have h1 := ih rest
          simp only [List.length_cons]
          omega
      · rw [if_neg hc]
        have h1 := ih rest
        simp only [List.length_cons]
        omega

theorem collapseNewlines_le (l : List Char) :
    (collapseNewlines l).length ≤ l.length :=
  collapseAux_le l.length l

theorem mergeResponses_pair (a b : List Char) :
    mergeResponses [a, b] = collapseNewlines (mergeStep a b) := rfl

/-- Claim C3: when the current response's first level-two heading line also
occurs as a substring of the accumulated text, merging the two responses
truncates the accumulated text to end right before the last occurrence of
that heading and appends the (title-stripped) current response after the
blank-line separator, so the merged output is strictly shorter than the two
lengths plus the separator. -/
theorem claim_C3 (a b : List Char) (ihp : Nat × List Char)
    (hfirst : findHeadingFrom true b 0 = some ihp)
    (hocc : ∃ p, ihp.2.isPrefixOf (a.drop p) = true ∧ p ≤ a.length) :
    (∃ j, lastIndexOf a ihp.2 = some j ∧
      mergeResponses [a, b] =
        collapseNewlines (a.take j ++ '\n' :: '\n' :: stripTitleOverview b)) ∧
    (mergeResponses [a, b]).length < a.length + b.length + 2 := by
  obtain ⟨p, hpre, hple⟩ := hocc
  obtain ⟨j, hj, hpj⟩ := lastIndexOf_ge hpre hple
  obtain ⟨hjpre, hjle⟩ := lastIndexOf_some hj
  have hmlen : 1 ≤ ihp.2.length := by
    obtain ⟨hmatch, _⟩ := findHeadingAux_some hfirst
    exact matchHeadingAt_some_len hmatch
  have hdroplen :
      ihp.2.length ≤ a.length - j := by
    have := (List.isPrefixOf_iff_prefix.mp hjpre).length_le
    simpa using this
  have hjlt : j < a.length := by omega
  have hstep_eq : mergeStep a b =
      a.take j ++ '\n' :: '\n' :: stripTitleOverview b := by
    unfold mergeStep
    rw [hfirst, Option.elim_some]
    rw [hj, Option.elim_some]
  refine ⟨⟨j, hj, by rw [mergeResponses_pair, hstep_eq]⟩, ?_⟩
  rw [mergeResponses_pair, hstep_eq]
  have hcoll := collapseNewlines_le
    (a.take j ++ '\n' :: '\n' :: stripTitleOverview b)
  have hstrip := stripTitleOverview_le b
  have hlen : (a.take j ++ '\n' :: '\n' :: stripTitleOverview b).length =
      min j a.length + 2 + (stripTitleOverview b).length := by
    simp only [List.length_append, List.length_take, List.length_cons]
    omega
  have := Nat.min_le_left j a.length
  omega

/-- Witness for C3 at two concrete responses sharing the heading line
`## A`. -/
theorem claim_C3_witness :
    findHeadingFrom true mergeRight 0 = some (0, "## A".data) ∧
    (∃ p, ("## A".data).isPrefixOf (mergeLeft.drop p) = true ∧
      p ≤ mergeLeft.length) ∧
    (∃ j, lastIndexOf mergeLeft ((0, "## A".data) : Nat × List Char).2 = some j ∧
      mergeResponses [mergeLeft, mergeRight] =
        collapseNewlines
          (mergeLeft.take j ++ '\n' :: '\n' :: stripTitleOverview mergeRight)) ∧
    (mergeResponses [mergeLeft, mergeRight]).length <
      mergeLeft.length + mergeRight.length + 2 := by
  have h1 : findHeadingFrom true mergeRight 0 = some (0, "## A".data) := by
    decide
  have h2 : ∃ p, ("## A".data).isPrefixOf (mergeLeft.drop p) = true ∧
      p ≤ mergeLeft.length := ⟨0, by decide, by decide⟩
  obtain ⟨hx, hy⟩ := claim_C3 mergeLeft mergeRight (0, "## A".data) h1 h2
  exact ⟨h1, h2, hx, hy⟩

/-! ## Claim C9 (no generation calls without a transcript) -/

theorem extractVideoId_ne_nil {u v : List Char}
    (h : extractVideoId u = some v) : u.isEmpty = false := by
  cases u with
  | nil =>
    have h0 : extractVideoId ([] : List Char) = none := by decide
    rw [h0] at h
    exact Option.noConfusion h
  | cons c rest => rfl

/-- Claim C9: for a request with a valid video URL and a configured key,
when the transcript fetch throws or returns no transcript the route answers
the transcript-unavailable error with HTTP 400 and issues zero generation
calls. -/
theorem claim_C9 (u vid : List Char) (fetch : FetchResult)
    (backend : Nat → CallOutcome) (ex₀ : List String)
    (hvid : extractVideoId u = some vid)
    (hfetch : fetch = FetchResult.noResult ∨
      ∃ msg, fetch = FetchResult.fetchError msg) :
    POSTmodel (some u) true fetch backend ex₀ =
      (ApiResponse.err 400 transcriptUnavailableMsg, 0) := by
  have hne : u.isEmpty = false := extractVideoId_ne_nil hvid
  have hft : fetchedTranscript fetch = none := by
    rcases hfetch with rfl | ⟨msg, rfl⟩
    · rfl
    · rfl
  unfold POSTmodel
  rw [Option.elim_some]
  rw [if_neg (by rw [hne]; simp)]
  rw [hvid, Option.elim_some]
  rw [if_neg (by decide)]
  rw [hft, Option.elim_none]

/-- Witness for C9: a bare video id with a null fetch result yields the
transcript-unavailable response and zero backend calls. -/
theorem claim_C9_witness :
    extractVideoId sampleVideoId = some sampleVideoId ∧
    POSTmodel (some sampleVideoId) true FetchResult.noResult
        alwaysQuotaBackend [] =
      (ApiResponse.err 400 transcriptUnavailableMsg, 0) := by
  have h1 : extractVideoId sampleVideoId = some sampleVideoId := by decide
  exact ⟨h1, claim_C9 sampleVideoId sampleVideoId FetchResult.noResult
    alwaysQuotaBackend [] h1 (Or.inl rfl)⟩

end TutorialGen
